import Mathlib

/-!
Verification of the numeric core of the `fft_package` repository.

Shallow embedding conventions:
* Python/numpy floats are modelled as real numbers (`ℝ`), complex values as `ℂ`.
* numpy float division by zero with a zero numerator produces NaN (with a
  warning, not an exception); we track NaN as `Option ℝ` with `none` = NaN
  (`nanDiv`).  This is exercised only by the window generators at `N = 1`.
* Python exceptions (`ValueError` from validation, numpy's
  "negative dimensions are not allowed" from `np.zeros`, numpy's
  "Invalid number of FFT data points (0) specified" from a zero-size
  `np.fft.fft`, and Python scalar `ZeroDivisionError` from
  `d=1/sampling_rate`) are modelled as `Except String` with the exception
  message as the payload.
* `np.fft.fft`/`ifft`/`rfft` are modelled by their defining exponential sums
  (`fftList`, `ifftList`, `rfftReal`), the conventions used by numpy.
* Python's integer floor division `//` is `Int.fdiv`.
-/

open Real Complex

noncomputable section

namespace FFTPackage

/-! ### Windowing — `src/fft_package/core/windowing.py` -/

/-- Float division producing NaN (`none`) when the denominator is zero.
In the source this arises only with a zero numerator (`0.0/0` = NaN). -/
def nanDiv (x y : ℝ) : Option ℝ :=
  if y = 0 then none else some (x / y)

/-- `hamming_window(N)`: `0.54 - 0.46*np.cos(2*np.pi*n/(N-1))` for `n = np.arange(N)`. -/
def hamming_window (N : ℕ) : List (Option ℝ) :=
  (List.range N).map fun n : ℕ =>
    (nanDiv (2 * π * (n : ℝ)) ((N : ℝ) - 1)).map fun r => 0.54 - 0.46 * Real.cos r

/-- `hanning_window(N)`: `0.5*(1 - np.cos(2*np.pi*n/(N-1)))` for `n = np.arange(N)`. -/
def hanning_window (N : ℕ) : List (Option ℝ) :=
  (List.range N).map fun n : ℕ =>
    (nanDiv (2 * π * (n : ℝ)) ((N : ℝ) - 1)).map fun r => 0.5 * (1 - Real.cos r)

/-- `blackman_window(N)`:
`0.42 - 0.5*np.cos(2*np.pi*n/(N-1)) + 0.08*np.cos(4*np.pi*n/(N-1))`. -/
def blackman_window (N : ℕ) : List (Option ℝ) :=
  (List.range N).map fun n : ℕ =>
    match nanDiv (2 * π * (n : ℝ)) ((N : ℝ) - 1), nanDiv (4 * π * (n : ℝ)) ((N : ℝ) - 1) with
    | some a, some b => some (0.42 - 0.5 * Real.cos a + 0.08 * Real.cos b)
    | _, _ => none

/-- `apply_window(signal, window_type)`: dispatch on the window-type tag,
multiply the signal elementwise by the generated window of length
`N = len(signal)`; unrecognized tags raise
`ValueError(f"Unsupported window type: {window_type}")`. -/
def apply_window (signal : List ℝ) (window_type : String) :
    Except String (List (Option ℝ)) :=
  let N := signal.length
  if window_type = "hamming" then
    .ok (List.zipWith (fun s w => w.map fun x => s * x) signal (hamming_window N))
  else if window_type = "hanning" then
    .ok (List.zipWith (fun s w => w.map fun x => s * x) signal (hanning_window N))
  else if window_type = "blackman" then
    .ok (List.zipWith (fun s w => w.map fun x => s * x) signal (blackman_window N))
  else
    .error ("Unsupported window type: " ++ window_type)

/-! ### Signal processing — `src/fft_package/core/signal_processing.py` -/

/-- `np.fft.fft`: full DFT, `A[k] = Σ_m a[m]·exp(-2πi·k·m/n)`. -/
def fftList (x : List ℂ) : List ℂ :=
  (List.range x.length).map fun k : ℕ =>
    ∑ m ∈ Finset.range x.length,
      x.getD m 0 * Complex.exp (-(2 * (π : ℂ) * Complex.I * (k : ℂ) * (m : ℂ)) / (x.length : ℂ))

/-- `np.fft.ifft`: inverse DFT, `a[m] = (1/n)·Σ_k A[k]·exp(2πi·k·m/n)`. -/
def ifftList (X : List ℂ) : List ℂ :=
  (List.range X.length).map fun m : ℕ =>
    (∑ k ∈ Finset.range X.length,
      X.getD k 0 * Complex.exp (2 * (π : ℂ) * Complex.I * (k : ℂ) * (m : ℂ) / (X.length : ℂ))) /
      (X.length : ℂ)

/-- `np.fft.fftfreq(n, d=1/sampling_rate)`:
`[0, 1, ..., (n-1)//2, -(n//2), ..., -1] * sampling_rate / n`. -/
def fftfreq (n : ℕ) (sampling_rate : ℝ) : List ℝ :=
  ((List.range ((n + 1) / 2)).map fun k : ℕ => (k : ℝ) * sampling_rate / (n : ℝ)) ++
    ((List.range (n / 2)).map fun k : ℕ =>
      ((k : ℝ) - ((n / 2 : ℕ) : ℝ)) * sampling_rate / (n : ℝ))

/-- `perform_fft(signal, sampling_rate)`: full FFT, magnitudes normalized by `n`
and truncated to the first `n//2` bins, matching one-sided frequencies, plus the
raw untruncated complex spectrum.  Error paths in source order: `np.fft.fft`
raises `ValueError` on a zero-size input (line 43), then the scalar Python
division `d=1/sampling_rate` (line 50) raises `ZeroDivisionError` when
`sampling_rate == 0`. -/
def perform_fft (signal : List ℝ) (sampling_rate : ℝ) :
    Except String (List ℝ × List ℝ × List ℂ) :=
  if signal.length = 0 then .error "Invalid number of FFT data points (0) specified"
  else
    let n := signal.length
    let fft_result := fftList (signal.map fun x : ℝ => (x : ℂ))
    let magnitude := (fft_result.map fun z => Complex.abs z / n).take (n / 2)
    if sampling_rate = 0 then .error "float division by zero"
    else
      let freq := (fftfreq n sampling_rate).take (n / 2)
      .ok (freq, magnitude, fft_result)

/-- `perform_ifft(fft_result)`: `np.fft.ifft(fft_result).real`.  `np.fft.ifft`
also raises `ValueError` on a zero-size input, but every raw spectrum returned
by `perform_fft` is nonempty (the zero-size signal already errored there), so on
the inputs the round-trip quantifies over this total model agrees with the
source. -/
def perform_ifft (fft_result : List ℂ) : List ℝ :=
  (ifftList fft_result).map Complex.re

/-! ### STFT — `src/fft_package/core/stft.py` -/

/-- `np.fft.rfft` on a real input of length `n`: the first `n//2 + 1` DFT
coefficients. -/
def rfftReal (x : List ℝ) : List ℂ :=
  (List.range (x.length / 2 + 1)).map fun k : ℕ =>
    ∑ m ∈ Finset.range x.length,
      (x.getD m 0 : ℂ) * Complex.exp (-(2 * (π : ℂ) * Complex.I * (k : ℂ) * (m : ℂ)) / (x.length : ℂ))

/-- Collects a NaN-tracked vector into a real vector when it is NaN-free. -/
def seqOption : List (Option ℝ) → Option (List ℝ)
  | [] => some []
  | none :: _ => none
  | some x :: rest => (seqOption rest).map fun xs => x :: xs

/-- `np.fft.rfft` on a NaN-tracked input: any NaN input contaminates every
output coefficient (every DFT coefficient sums all inputs). -/
def rfft (x : List (Option ℝ)) : List (Option ℂ) :=
  match seqOption x with
  | some xs => (rfftReal xs).map some
  | none => (List.range (x.length / 2 + 1)).map fun _ => none

/-- `np.fft.rfftfreq(n, d=1/sampling_rate)`: `[0, 1, ..., n//2] * sampling_rate / n`. -/
def rfftfreq (n : ℕ) (sampling_rate : ℝ) : List ℝ :=
  (List.range (n / 2 + 1)).map fun k : ℕ => (k : ℝ) * sampling_rate / (n : ℝ)

/-- The frame `signal[start : start + len]` (Python slice semantics for
nonnegative indices). -/
def frame (signal : List ℝ) (start len : ℕ) : List ℝ :=
  (signal.drop start).take len

/-- The `for i in range(num_windows)` loop body of `compute_stft`: window the
`i`-th frame and take its one-sided FFT; a `ValueError` from `apply_window`
aborts the computation. -/
def stftRows (signal : List ℝ) (hop w : ℕ) (window_type : String) :
    List ℕ → Except String (List (List (Option ℂ)))
  | [] => .ok []
  | i :: rest => do
    let windowed ← apply_window (frame signal (i * hop) w) window_type
    let rows ← stftRows signal hop w window_type rest
    pure (rfft windowed :: rows)

/-- `compute_stft(signal, sampling_rate, window_size, hop_length, window_type)`.
Validation errors come first; then `np.zeros((num_windows, ...))` raises on a
negative `num_windows`; then `np.fft.rfftfreq(window_size, d=1/sampling_rate)`
raises `ZeroDivisionError` when `sampling_rate == 0`; then each frame is
windowed (raising on an unrecognized tag if at least one frame exists) and
transformed. -/
def compute_stft (signal : List ℝ) (sampling_rate : ℝ) (window_size hop_length : ℤ)
    (window_type : String := "hamming") :
    Except String (List ℝ × List ℝ × List (List (Option ℂ))) :=
  if window_size ≤ 0 then .error "window_size must be positive"
  else if hop_length ≤ 0 then .error "hop_length must be positive"
  else if hop_length > window_size then .error "hop_length must be less than or equal to window_size"
  else
    let num_samples : ℤ := (signal.length : ℤ)
    let num_windows : ℤ := 1 + Int.fdiv (num_samples - window_size) hop_length
    if num_windows < 0 then .error "negative dimensions are not allowed"
    else if sampling_rate = 0 then .error "float division by zero"
    else
      let freqs := rfftfreq window_size.toNat sampling_rate
      let times := (List.range num_windows.toNat).map
        fun i : ℕ => (i : ℝ) * (hop_length : ℝ) / sampling_rate
      match stftRows signal hop_length.toNat window_size.toNat window_type
          (List.range num_windows.toNat) with
      | .ok stft_matrix => .ok (times, freqs, stft_matrix)
      | .error e => .error e

/-- `np.finfo(float).eps` = 2⁻⁵². -/
def eps : ℝ := 2 ^ (-52 : ℤ)

/-- `np.max` over a nonempty collection (numpy raises on an empty one; the
`[]` value below is never used behind the emptiness guard). -/
def listMax : List ℝ → ℝ
  | [] => 0
  | x :: xs => xs.foldl max x

/-- `np.min` over a nonempty collection. -/
def listMin : List ℝ → ℝ
  | [] => 0
  | x :: xs => xs.foldl min x

/-- `power = np.abs(stft_matrix) ** 2` (line 94 of `stft.py`). -/
def power (stft_matrix : List (List ℂ)) : List (List ℝ) :=
  stft_matrix.map fun row => row.map fun z => Complex.abs z ^ 2

/-- `power_db = 10 * np.log10(np.maximum(power, eps))` (line 102 of `stft.py`). -/
def power_db (stft_matrix : List (List ℂ)) : List (List ℝ) :=
  (power stft_matrix).map fun row => row.map fun p => 10 * Real.logb 10 (max p eps)

/-- `power_db.max()` (line 105 of `stft.py`). -/
def peak_db (stft_matrix : List (List ℂ)) : ℝ :=
  listMax (power_db stft_matrix).flatten

/-- `compute_spectrogram(times, freqs, stft_matrix, db_range)`.  `times` and
`freqs` are accepted and ignored, exactly as in the source.  `power.max()` on a
zero-size matrix raises; otherwise the dB conversion is clamped at
`power_db.max() - db_range`.  The dead local `power_min` of the source is kept. -/
def compute_spectrogram (times freqs : List ℝ) (stft_matrix : List (List ℂ))
    (db_range : ℝ := 60.0) : Except String (List (List ℝ)) :=
  if (power stft_matrix).flatten = [] then
    .error "zero-size array to reduction operation maximum which has no identity"
  else
    let power_max := listMax (power stft_matrix).flatten
    let power_min := power_max * (10 : ℝ) ^ (-db_range / 10)
    .ok ((power_db stft_matrix).map fun row =>
      row.map fun x => max x (peak_db stft_matrix - db_range))

/-! ### Helper lemmas about `listMax` and `listMin` -/

lemma le_foldl_max (l : List ℝ) (a : ℝ) : a ≤ l.foldl max a := by
  induction l generalizing a with
  | nil => exact le_rfl
  | cons b t ih =>
    simp only [List.foldl_cons]
    exact le_trans (le_max_left a b) (ih (max a b))

lemma mem_le_foldl_max (l : List ℝ) (a x : ℝ) (h : x ∈ l) : x ≤ l.foldl max a := by
  induction l generalizing a with
  | nil => cases h
  | cons b t ih =>
    simp only [List.foldl_cons]
    rcases List.mem_cons.1 h with rfl | h2
    · exact le_trans (le_max_right a x) (le_foldl_max t (max a x))
    · exact ih (max a b) h2

lemma foldl_max_le (l : List ℝ) (a c : ℝ) (ha : a ≤ c) (h : ∀ x ∈ l, x ≤ c) :
    l.foldl max a ≤ c := by
  induction l generalizing a with
  | nil => exact ha
  | cons b t ih =>
    simp only [List.foldl_cons]
    exact ih (max a b) (max_le ha (h b (List.mem_cons_self b t)))
      fun x hx => h x (List.mem_cons_of_mem b hx)

lemma foldl_max_mem (l : List ℝ) (a : ℝ) : l.foldl max a ∈ a :: l := by
  induction l generalizing a with
  | nil => simp
  | cons b t ih =>
    simp only [List.foldl_cons]
    rcases List.mem_cons.1 (ih (max a b)) with h | h
    · rw [h]
      rcases max_choice a b with h2 | h2 <;> rw [h2] <;> simp
    · simp [List.mem_cons_of_mem, h]

lemma le_listMax {l : List ℝ} {x : ℝ} (h : x ∈ l) : x ≤ listMax l := by
  cases l with
  | nil => cases h
  | cons a t =>
    rcases List.mem_cons.1 h with rfl | h2
    · exact le_foldl_max t x
    · exact mem_le_foldl_max t a x h2

lemma listMax_le {l : List ℝ} {c : ℝ} (hne : l ≠ []) (h : ∀ x ∈ l, x ≤ c) :
    listMax l ≤ c := by
  cases l with
  | nil => exact absurd rfl hne
  | cons a t =>
    exact foldl_max_le t a c (h a (List.mem_cons_self a t))
      fun x hx => h x (List.mem_cons_of_mem a hx)

lemma listMax_mem {l : List ℝ} (hne : l ≠ []) : listMax l ∈ l := by
  cases l with
  | nil => exact absurd rfl hne
  | cons a t => exact foldl_max_mem t a

lemma foldl_min_le (l : List ℝ) (a : ℝ) : l.foldl min a ≤ a := by
  induction l generalizing a with
  | nil => exact le_rfl
  | cons b t ih =>
    simp only [List.foldl_cons]
    exact le_trans (ih (min a b)) (min_le_left a b)

lemma foldl_min_le_mem (l : List ℝ) (a x : ℝ) (h : x ∈ l) : l.foldl min a ≤ x := by
  induction l generalizing a with
  | nil => cases h
  | cons b t ih =>
    simp only [List.foldl_cons]
    rcases List.mem_cons.1 h with rfl | h2
    · exact le_trans (foldl_min_le t (min a x)) (min_le_right a x)
    · exact ih (min a b) h2

lemma le_foldl_min (l : List ℝ) (a c : ℝ) (ha : c ≤ a) (h : ∀ x ∈ l, c ≤ x) :
    c ≤ l.foldl min a := by
  induction l generalizing a with
  | nil => exact ha
  | cons b t ih =>
    simp only [List.foldl_cons]
    exact ih (min a b) (le_min ha (h b (List.mem_cons_self b t)))
      fun x hx => h x (List.mem_cons_of_mem b hx)

lemma le_listMin {l : List ℝ} {c : ℝ} (hne : l ≠ []) (h : ∀ x ∈ l, c ≤ x) :
    c ≤ listMin l := by
  cases l with
  | nil => exact absurd rfl hne
  | cons a t =>
    exact le_foldl_min t a c (h a (List.mem_cons_self a t))
      fun x hx => h x (List.mem_cons_of_mem a hx)

lemma listMax_map_max_const {l : List ℝ} (hne : l ≠ []) (c : ℝ) :
    listMax (l.map fun x => max x c) = max (listMax l) c := by
  apply le_antisymm
  · refine listMax_le (by simpa using hne) ?_
    rintro y hy
    rcases List.mem_map.1 hy with ⟨x, hx, rfl⟩
    exact max_le_max (le_listMax hx) le_rfl
  · exact le_listMax (List.mem_map_of_mem _ (listMax_mem hne))

lemma listMax_map_mono {l : List ℝ} (hne : l ≠ []) {f : ℝ → ℝ} (hf : Monotone f) :
    listMax (l.map f) = f (listMax l) := by
  apply le_antisymm
  · refine listMax_le (by simpa using hne) ?_
    rintro y hy
    rcases List.mem_map.1 hy with ⟨x, hx, rfl⟩
    exact hf (le_listMax hx)
  · exact le_listMax (List.mem_map_of_mem _ (listMax_mem hne))

/-! ### Helper lemmas about the window generators -/

lemma getD_hamming (N n : ℕ) (h : n < N) :
    (hamming_window N).getD n none =
      (nanDiv (2 * π * (n : ℝ)) ((N : ℝ) - 1)).map fun r => 0.54 - 0.46 * Real.cos r := by
  simp only [hamming_window, List.getD_eq_getElem?_getD, List.getElem?_map,
    List.getElem?_range h]
  rfl

lemma getD_hanning (N n : ℕ) (h : n < N) :
    (hanning_window N).getD n none =
      (nanDiv (2 * π * (n : ℝ)) ((N : ℝ) - 1)).map fun r => 0.5 * (1 - Real.cos r) := by
  simp only [hanning_window, List.getD_eq_getElem?_getD, List.getElem?_map,
    List.getElem?_range h]
  rfl

lemma getD_blackman (N n : ℕ) (h : n < N) :
    (blackman_window N).getD n none =
      (match nanDiv (2 * π * (n : ℝ)) ((N : ℝ) - 1), nanDiv (4 * π * (n : ℝ)) ((N : ℝ) - 1) with
        | some a, some b => some (0.42 - 0.5 * Real.cos a + 0.08 * Real.cos b)
        | _, _ => none) := by
  simp only [blackman_window, List.getD_eq_getElem?_getD, List.getElem?_map,
    List.getElem?_range h]
  rfl

lemma sub_one_ne_zero_of_two_le (N : ℕ) (hN : 2 ≤ N) : ((N : ℝ) - 1) ≠ 0 := by
  have h2 : (2 : ℝ) ≤ (N : ℝ) := by exact_mod_cast hN
  linarith

lemma cast_mirror (N n : ℕ) (hN : 2 ≤ N) (hn : n < N) :
    ((N - 1 - n : ℕ) : ℝ) = (N : ℝ) - 1 - n := by
  push_cast [Nat.cast_sub (by omega : n ≤ N - 1), Nat.cast_sub (by omega : 1 ≤ N)]
  ring_nf

lemma mirror_arg (N n : ℕ) (hN : 2 ≤ N) (hn : n < N) (c : ℝ) :
    c * π * ((N - 1 - n : ℕ) : ℝ) / ((N : ℝ) - 1) =
      c * π - c * π * (n : ℝ) / ((N : ℝ) - 1) := by
  rw [cast_mirror N n hN hn]
  have hne := sub_one_ne_zero_of_two_le N hN
  field_simp
  ring_nf

lemma cos_two_pi_sub_eq (x : ℝ) : Real.cos (2 * π - x) = Real.cos x := by
  rw [Real.cos_sub]
  simp [Real.cos_two_pi, Real.sin_two_pi]

lemma cos_four_pi_sub_eq (x : ℝ) : Real.cos (4 * π - x) = Real.cos x := by
  rw [Real.cos_sub]
  have h1 : Real.cos (4 * π) = 1 := by
    have h := Real.cos_nat_mul_two_pi 2
    push_cast at h
    rw [show (4 : ℝ) * π = 2 * (2 * π) by ring]
    exact h
  have h2 : Real.sin (4 * π) = 0 := by
    have h := Real.sin_nat_mul_pi 4
    push_cast at h
    exact h
  rw [h1, h2]
  ring_nf

lemma eps_pos : 0 < eps := by
  unfold eps
  positivity

lemma eps_le_one : eps ≤ 1 := by
  unfold eps
  rw [zpow_neg]
  exact inv_le_one_of_one_le₀ (one_le_zpow₀ (by norm_num) (by norm_num))

/-! ### Helper lemmas about `compute_stft` -/

lemma getD_map_range {α : Type} (n k : ℕ) (f : ℕ → α) (d : α) (h : k < n) :
    ((List.range n).map f).getD k d = f k := by
  simp [List.getD_eq_getElem?_getD, List.getElem?_map, List.getElem?_range h]

lemma hamming_window_length (N : ℕ) : (hamming_window N).length = N := by
  simp [hamming_window]

lemma hanning_window_length (N : ℕ) : (hanning_window N).length = N := by
  simp [hanning_window]

lemma blackman_window_length (N : ℕ) : (blackman_window N).length = N := by
  simp [blackman_window]

lemma apply_window_ok_length (s : List ℝ) (wt : String)
    (hwt : wt = "hamming" ∨ wt = "hanning" ∨ wt = "blackman") :
    ∃ wd, apply_window s wt = .ok wd ∧ wd.length = s.length := by
  rcases hwt with h | h | h <;> subst h
  · refine ⟨List.zipWith (fun s w => w.map fun x => s * x) s (hamming_window s.length), ?_, ?_⟩
    · simp [apply_window]
    · simp [List.length_zipWith, hamming_window_length]
  · refine ⟨List.zipWith (fun s w => w.map fun x => s * x) s (hanning_window s.length), ?_, ?_⟩
    · simp [apply_window]
    · simp [List.length_zipWith, hanning_window_length]
  · refine ⟨List.zipWith (fun s w => w.map fun x => s * x) s (blackman_window s.length), ?_, ?_⟩
    · simp [apply_window]
    · simp [List.length_zipWith, blackman_window_length]

lemma apply_window_unrecognized (s : List ℝ) (wt : String)
    (h1 : wt ≠ "hamming") (h2 : wt ≠ "hanning") (h3 : wt ≠ "blackman") :
    apply_window s wt = .error ("Unsupported window type: " ++ wt) := by
  simp [apply_window, h1, h2, h3]

lemma seqOption_length {x : List (Option ℝ)} {xs : List ℝ} (h : seqOption x = some xs) :
    xs.length = x.length := by
  induction x generalizing xs with
  | nil =>
    simp only [seqOption, Option.some.injEq] at h
    subst h
    rfl
  | cons a t ih =>
    cases a with
    | none => simp [seqOption] at h
    | some v =>
      simp only [seqOption, Option.map_eq_some'] at h
      obtain ⟨ys, hys, rfl⟩ := h
      simp [ih hys]

lemma rfft_length (x : List (Option ℝ)) : (rfft x).length = x.length / 2 + 1 := by
  rw [rfft]
  cases hseq : seqOption x with
  | some xs => simp [rfftReal, seqOption_length hseq]
  | none => simp

lemma frame_length (s : List ℝ) (start len : ℕ) (h : start + len ≤ s.length) :
    (frame s start len).length = len := by
  simp only [frame, List.length_take, List.length_drop]
  omega

lemma except_ok_bind {ε α β : Type} (a : α) (f : α → Except ε β) :
    Except.bind (Except.ok a) f = f a := rfl

lemma except_error_bind {ε α β : Type} (e : ε) (f : α → Except ε β) :
    Except.bind (Except.error e) f = Except.error e := rfl

lemma stftRows_cons (sig : List ℝ) (hop w : ℕ) (wt : String) (i : ℕ) (t : List ℕ) :
    stftRows sig hop w wt (i :: t) =
      Except.bind (apply_window (frame sig (i * hop) w) wt) fun windowed =>
        Except.bind (stftRows sig hop w wt t) fun rows =>
          Except.ok (rfft windowed :: rows) := rfl

lemma stftRows_ok (sig : List ℝ) (hop w : ℕ) (wt : String)
    (hwt : wt = "hamming" ∨ wt = "hanning" ∨ wt = "blackman") (l : List ℕ)
    (hb : ∀ i ∈ l, i * hop + w ≤ sig.length) :
    ∃ M, stftRows sig hop w wt l = .ok M ∧ M.length = l.length ∧
      ∀ row ∈ M, row.length = w / 2 + 1 := by
  induction l with
  | nil => exact ⟨[], rfl, rfl, by simp⟩
  | cons i t ih =>
    obtain ⟨M, hM, hMlen, hMrow⟩ := ih fun j hj => hb j (List.mem_cons_of_mem i hj)
    obtain ⟨wd, hwd, hwdlen⟩ := apply_window_ok_length (frame sig (i * hop) w) wt hwt
    have hfr : (frame sig (i * hop) w).length = w :=
      frame_length sig (i * hop) w (hb i (List.mem_cons_self i t))
    refine ⟨rfft wd :: M, ?_, by simp [hMlen], ?_⟩
    · rw [stftRows_cons, hwd, except_ok_bind, hM, except_ok_bind]
    · rintro row hrow
      rcases List.mem_cons.1 hrow with rfl | hr
      · rw [rfft_length, hwdlen, hfr]
      · exact hMrow row hr

lemma stftRows_unrecognized (sig : List ℝ) (hop w : ℕ) (wt : String)
    (h1 : wt ≠ "hamming") (h2 : wt ≠ "hanning") (h3 : wt ≠ "blackman") (i : ℕ) (t : List ℕ) :
    stftRows sig hop w wt (i :: t) = .error ("Unsupported window type: " ++ wt) := by
  rw [stftRows_cons, apply_window_unrecognized _ _ h1 h2 h3, except_error_bind]

lemma fdiv_mul_le (a : ℤ) {b : ℤ} (hb : 0 < b) : b * Int.fdiv a b ≤ a := by
  have h1 := Int.fmod_add_fdiv a b
  have h2 := Int.fmod_nonneg' a hb
  linarith

/-! ### Helper lemmas about the DFT: orthogonality of the exponential kernel -/

lemma exp_term_pow (n : ℕ) (d : ℤ) (k : ℕ) :
    Complex.exp (2 * (π : ℂ) * Complex.I * (d : ℂ) * (k : ℂ) / (n : ℂ)) =
      Complex.exp (2 * (π : ℂ) * Complex.I * (d : ℂ) / (n : ℂ)) ^ k := by
  rw [← Complex.exp_nat_mul]
  congr 1
  ring_nf

lemma root_ne_one (n : ℕ) (hn : 0 < n) (d : ℤ) (hnd : ¬ (n : ℤ) ∣ d) :
    Complex.exp (2 * (π : ℂ) * Complex.I * (d : ℂ) / (n : ℂ)) ≠ 1 := by
  intro h
  rw [Complex.exp_eq_one_iff] at h
  obtain ⟨t, ht⟩ := h
  have hn0 : (n : ℂ) ≠ 0 := by
    exact_mod_cast hn.ne'
  have hpi : (π : ℂ) ≠ 0 := by
    exact_mod_cast Real.pi_ne_zero
  have hI := Complex.I_ne_zero
  have hd : (d : ℂ) = (t : ℂ) * (n : ℂ) := by
    field_simp at ht
    have h2 : 2 * (π : ℂ) * Complex.I * (d : ℂ) =
        2 * (π : ℂ) * Complex.I * ((t : ℂ) * (n : ℂ)) := by
      linear_combination ht
    exact mul_left_cancel₀ (by simp [hpi, hI] : 2 * (π : ℂ) * Complex.I ≠ 0) h2
  have hdz : d = t * n := by
    exact_mod_cast hd
  exact hnd ⟨t, by rw [hdz]; ring⟩

lemma sum_exp_orthogonality (n : ℕ) (hn : 0 < n) (d : ℤ) (hd1 : -(n : ℤ) < d) (hd2 : d < n) :
    ∑ k ∈ Finset.range n, Complex.exp (2 * (π : ℂ) * Complex.I * (d : ℂ) * (k : ℂ) / (n : ℂ)) =
      if d = 0 then (n : ℂ) else 0 := by
  by_cases h0 : d = 0
  · subst h0
    simp
  · rw [if_neg h0]
    have hnd : ¬ (n : ℤ) ∣ d := by
      rintro ⟨c, rfl⟩
      have hnz : (0 : ℤ) < n := by exact_mod_cast hn
      have hc1 : c < 1 := by
        by_contra hc
        push_neg at hc
        nlinarith
      have hc2 : -1 < c := by
        by_contra hc
        push_neg at hc
        nlinarith
      have hc0 : c = 0 := by omega
      subst hc0
      exact h0 (mul_zero _)
    have hne1 := root_ne_one n hn d hnd
    have hterm : ∀ k ∈ Finset.range n,
        Complex.exp (2 * (π : ℂ) * Complex.I * (d : ℂ) * (k : ℂ) / (n : ℂ)) =
          Complex.exp (2 * (π : ℂ) * Complex.I * (d : ℂ) / (n : ℂ)) ^ k :=
      fun k _ => exp_term_pow n d k
    rw [Finset.sum_congr rfl hterm, geom_sum_eq hne1 n]
    have hpow : Complex.exp (2 * (π : ℂ) * Complex.I * (d : ℂ) / (n : ℂ)) ^ n = 1 := by
      rw [← Complex.exp_nat_mul]
      have hn0 : (n : ℂ) ≠ 0 := by exact_mod_cast hn.ne'
      have harg : (n : ℂ) * (2 * (π : ℂ) * Complex.I * (d : ℂ) / (n : ℂ)) =
          (d : ℂ) * (2 * (π : ℂ) * Complex.I) := by
        field_simp
        ring_nf
      rw [harg, Complex.exp_int_mul_two_pi_mul_I]
    rw [hpow, sub_self, zero_div]

lemma fftList_length (x : List ℂ) : (fftList x).length = x.length := by
  simp [fftList]

lemma fftList_getD (x : List ℂ) (k : ℕ) (hk : k < x.length) :
    (fftList x).getD k 0 =
      ∑ m ∈ Finset.range x.length,
        x.getD m 0 * Complex.exp (-(2 * (π : ℂ) * Complex.I * (k : ℂ) * (m : ℂ)) / (x.length : ℂ)) := by
  rw [fftList]
  exact getD_map_range x.length k _ 0 hk

/-- Exact DFT inversion: `np.fft.ifft ∘ np.fft.fft = id` in real arithmetic. -/
lemma ifft_fft (x : List ℂ) : ifftList (fftList x) = x := by
  have hlen : (fftList x).length = x.length := fftList_length x
  have hlen2 : (ifftList (fftList x)).length = x.length := by
    simp [ifftList, hlen]
  apply List.ext_getElem hlen2
  intro m h1 h2
  have hn0 : 0 < x.length := lt_of_le_of_lt (Nat.zero_le m) h2
  have hnC : (x.length : ℂ) ≠ 0 := by exact_mod_cast hn0.ne'
  simp only [ifftList, List.getElem_map, List.getElem_range, hlen]
  have hstep1 : ∀ k ∈ Finset.range x.length,
      (fftList x).getD k 0 * Complex.exp (2 * (π : ℂ) * Complex.I * (k : ℂ) * (m : ℂ) / (x.length : ℂ)) =
        ∑ j ∈ Finset.range x.length,
          x.getD j 0 * Complex.exp (2 * (π : ℂ) * Complex.I * (((m : ℤ) - (j : ℤ) : ℤ) : ℂ) * (k : ℂ) / (x.length : ℂ)) := by
    intro k hk
    rw [Finset.mem_range] at hk
    rw [fftList_getD x k hk, Finset.sum_mul]
    refine Finset.sum_congr rfl fun j hj => ?_
    rw [mul_assoc, ← Complex.exp_add]
    congr 1
    push_cast
    ring_nf
  rw [Finset.sum_congr rfl hstep1, Finset.sum_comm]
  have hstep2 : ∀ j ∈ Finset.range x.length,
      (∑ k ∈ Finset.range x.length,
        x.getD j 0 * Complex.exp (2 * (π : ℂ) * Complex.I * (((m : ℤ) - (j : ℤ) : ℤ) : ℂ) * (k : ℂ) / (x.length : ℂ))) =
        if j = m then x.getD j 0 * (x.length : ℂ) else 0 := by
    intro j hj
    rw [Finset.mem_range] at hj
    rw [← Finset.mul_sum,
      sum_exp_orthogonality x.length hn0 ((m : ℤ) - (j : ℤ)) (by omega) (by omega)]
    by_cases hjm : j = m
    · rw [if_pos (show (m : ℤ) - (j : ℤ) = 0 by omega), if_pos hjm]
    · have hne : ¬ ((m : ℤ) - (j : ℤ) = 0) := by omega
      rw [if_neg hne, if_neg hjm, mul_zero]
  rw [Finset.sum_congr rfl hstep2,
    Finset.sum_ite_eq' (Finset.range x.length) m fun j => x.getD j 0 * (x.length : ℂ),
    if_pos (Finset.mem_range.2 h2), mul_div_assoc, div_self hnC, mul_one,
    List.getD_eq_getElem?_getD, List.getElem?_eq_getElem h2]
  rfl

/-! ### Helper lemmas about `compute_spectrogram` -/

lemma compute_spectrogram_ok {times freqs : List ℝ} {M : List (List ℂ)} {db : ℝ}
    {S : List (List ℝ)} (h : compute_spectrogram times freqs M db = .ok S) :
    (power M).flatten ≠ [] ∧
    S = (power_db M).map fun row => row.map fun x => max x (peak_db M - db) := by
  rw [compute_spectrogram] at h
  by_cases hc : (power M).flatten = []
  · rw [if_pos hc] at h
    exact absurd h (by simp)
  · rw [if_neg hc] at h
    exact ⟨hc, (Except.ok.inj h).symm⟩

lemma power_db_flatten (M : List (List ℂ)) :
    (power_db M).flatten = (power M).flatten.map fun p => 10 * Real.logb 10 (max p eps) := by
  simp [power_db, List.map_flatten]

lemma spectrogram_flatten (M : List (List ℂ)) (db : ℝ) :
    ((power_db M).map fun row => row.map fun x => max x (peak_db M - db)).flatten =
      (power_db M).flatten.map fun x => max x (peak_db M - db) := by
  simp [List.map_flatten]

lemma power_db_flatten_ne {M : List (List ℂ)} (hne : (power M).flatten ≠ []) :
    (power_db M).flatten ≠ [] := by
  rw [power_db_flatten]
  simpa using hne

lemma db_mono : Monotone fun p : ℝ => 10 * Real.logb 10 (max p eps) := by
  intro a b hab
  have h1 : (0 : ℝ) < max a eps := lt_of_lt_of_le eps_pos (le_max_right a eps)
  have h2 : max a eps ≤ max b eps := max_le_max hab le_rfl
  have h3 := Real.logb_le_logb_of_le (by norm_num : (1 : ℝ) < 10) h1 h2
  exact mul_le_mul_of_nonneg_left h3 (by norm_num)

lemma compute_spectrogram_singleton (z : ℂ) (db : ℝ) :
    compute_spectrogram [] [] [[z]] db =
      .ok [[max (10 * Real.logb 10 (max (Complex.abs z ^ 2) eps))
              (10 * Real.logb 10 (max (Complex.abs z ^ 2) eps) - db)]] := by
  have h1 : power [[z]] = [[Complex.abs z ^ 2]] := by simp [power]
  have h2 : power_db [[z]] = [[10 * Real.logb 10 (max (Complex.abs z ^ 2) eps)]] := by
    simp [power_db, h1]
  have h3 : peak_db [[z]] = 10 * Real.logb 10 (max (Complex.abs z ^ 2) eps) := by
    rw [peak_db, h2]
    rfl
  simp [compute_spectrogram, h1, h2, h3]

/-! ### The claims -/

/-- C6 counterexample: with `N = 1` the Hamming generator does not fail; the
numpy expression `0.0/0` yields NaN (with a runtime warning, not an
exception) and a length-1 window `[NaN]` is returned. -/
theorem hamming_window_one_counterexample : hamming_window 1 = [none] := by
  rw [hamming_window, show List.range 1 = [0] from rfl]
  simp only [List.map_cons, List.map_nil, nanDiv]
  norm_num

/-- C6 (amended): for each of the three window generators, calling it with
`N = 1` divides `0.0` by zero, so the generator returns — without raising —
a length-1 window whose single entry is NaN (`none`), not a real weight. -/
theorem window_n1_nan :
    hamming_window 1 = [none] ∧ hanning_window 1 = [none] ∧ blackman_window 1 = [none] := by
  refine ⟨?_, ?_, ?_⟩ <;>
    · simp only [hamming_window, hanning_window, blackman_window,
        show List.range 1 = [0] from rfl, List.map_cons, List.map_nil, nanDiv]
      norm_num

/-- C7: for each window family (Hamming, Hanning, Blackman) and every `N ≥ 2`,
the generated window is symmetric: `w[n] = w[N-1-n]` for all `n < N` (exactly,
in real arithmetic). -/
theorem window_symmetry (N n : ℕ) (hN : 2 ≤ N) (hn : n < N) :
    (hamming_window N).getD n none = (hamming_window N).getD (N - 1 - n) none ∧
    (hanning_window N).getD n none = (hanning_window N).getD (N - 1 - n) none ∧
    (blackman_window N).getD n none = (blackman_window N).getD (N - 1 - n) none := by
  have hmir : N - 1 - n < N := by omega
  have hne := sub_one_ne_zero_of_two_le N hN
  have hcos2 : Real.cos (2 * π * ((N - 1 - n : ℕ) : ℝ) / ((N : ℝ) - 1)) =
      Real.cos (2 * π * (n : ℝ) / ((N : ℝ) - 1)) := by
    rw [mirror_arg N n hN hn 2, cos_two_pi_sub_eq]
  have hcos4 : Real.cos (4 * π * ((N - 1 - n : ℕ) : ℝ) / ((N : ℝ) - 1)) =
      Real.cos (4 * π * (n : ℝ) / ((N : ℝ) - 1)) := by
    rw [mirror_arg N n hN hn 4, cos_four_pi_sub_eq]
  refine ⟨?_, ?_, ?_⟩
  · rw [getD_hamming N n hn, getD_hamming N _ hmir]
    simp only [nanDiv, if_neg hne, Option.map_some']
    rw [hcos2]
  · rw [getD_hanning N n hn, getD_hanning N _ hmir]
    simp only [nanDiv, if_neg hne, Option.map_some']
    rw [hcos2]
  · rw [getD_blackman N n hn, getD_blackman N _ hmir]
    simp only [nanDiv, if_neg hne]
    rw [hcos2, hcos4]

/-- Witness for C7 at `N = 4`, `n = 1`. -/
theorem window_symmetry_witness :
    2 ≤ 4 ∧ 1 < 4 ∧
    ((hamming_window 4).getD 1 none = (hamming_window 4).getD (4 - 1 - 1) none ∧
     (hanning_window 4).getD 1 none = (hanning_window 4).getD (4 - 1 - 1) none ∧
     (blackman_window 4).getD 1 none = (blackman_window 4).getD (4 - 1 - 1) none) :=
  ⟨by norm_num, by norm_num, window_symmetry 4 1 (by norm_num) (by norm_num)⟩

/-- C1: whenever `compute_spectrogram` returns a spectrogram (the input matrix
has at least one entry) and `db_range > 0`, the spectrogram's dynamic range is
bounded: `max(output) - min(output) ≤ db_range`. -/
theorem spectrogram_dynamic_range (times freqs : List ℝ) (M : List (List ℂ)) (db : ℝ)
    (S : List (List ℝ)) (hdb : 0 < db)
    (h : compute_spectrogram times freqs M db = .ok S) :
    listMax S.flatten - listMin S.flatten ≤ db := by
  obtain ⟨hne, rfl⟩ := compute_spectrogram_ok h
  have hpdb := power_db_flatten_ne (M := M) hne
  rw [spectrogram_flatten]
  have hmapne : ((power_db M).flatten.map fun x => max x (peak_db M - db)) ≠ [] := by
    simpa using hpdb
  have h1 : listMax ((power_db M).flatten.map fun x => max x (peak_db M - db)) ≤ peak_db M := by
    refine listMax_le hmapne ?_
    rintro y hy
    rcases List.mem_map.1 hy with ⟨x, hx, rfl⟩
    have hxle : x ≤ peak_db M := le_listMax hx
    exact max_le hxle (by linarith)
  have h2 : peak_db M - db ≤ listMin ((power_db M).flatten.map fun x => max x (peak_db M - db)) := by
    refine le_listMin hmapne ?_
    rintro y hy
    rcases List.mem_map.1 hy with ⟨x, hx, rfl⟩
    exact le_max_right x _
  linarith

/-- Witness for C1 at the one-entry matrix `[[1]]` and `db_range = 60`. -/
theorem spectrogram_dynamic_range_witness :
    (0 : ℝ) < 60 ∧
    listMax [[max (10 * Real.logb 10 (max (Complex.abs 1 ^ 2) eps))
              (10 * Real.logb 10 (max (Complex.abs 1 ^ 2) eps) - 60)]].flatten -
      listMin [[max (10 * Real.logb 10 (max (Complex.abs 1 ^ 2) eps))
              (10 * Real.logb 10 (max (Complex.abs 1 ^ 2) eps) - 60)]].flatten ≤ 60 :=
  ⟨by norm_num,
   spectrogram_dynamic_range [] [] [[1]] 60 _ (by norm_num)
     (compute_spectrogram_singleton 1 60)⟩

/-- C10: the output of `compute_spectrogram` depends only on `stft_matrix` and
`db_range`; the `times` and `freqs` arguments are ignored. -/
theorem spectrogram_ignores_times_freqs (t1 f1 t2 f2 : List ℝ) (M : List (List ℂ)) (db : ℝ) :
    compute_spectrogram t1 f1 M db = compute_spectrogram t2 f2 M db := rfl

/-- C3: for every real sample sequence, applying `perform_ifft` to the raw
full complex spectrum returned by `perform_fft` reproduces the input
elementwise; in real arithmetic the reconstruction is exact, so the absolute
error is `0 ≤ 1e-10` at every index. -/
theorem fft_ifft_roundtrip (s : List ℝ) (sr : ℝ) (freqs mags : List ℝ) (raw : List ℂ)
    (h : perform_fft s sr = .ok (freqs, mags, raw)) (i : ℕ) :
    |(perform_ifft raw).getD i 0 - s.getD i 0| ≤ 1e-10 := by
  rw [perform_fft] at h
  by_cases hlen : s.length = 0
  · rw [if_pos hlen] at h
    exact absurd h (by simp)
  rw [if_neg hlen] at h
  by_cases hsr : sr = 0
  · rw [if_pos hsr] at h
    exact absurd h (by simp)
  · rw [if_neg hsr] at h
    have h4 := Except.ok.inj h
    have hraw : raw = fftList (s.map fun x : ℝ => (x : ℂ)) := by
      have h5 := congrArg (fun p : List ℝ × List ℝ × List ℂ => p.2.2) h4
      simpa using h5.symm
    have hlist : perform_ifft (fftList (s.map fun x : ℝ => (x : ℂ))) = s := by
      rw [perform_ifft, ifft_fft, List.map_map]
      simp [Function.comp_def, Complex.ofReal_re]
    rw [hraw, hlist, sub_self, abs_zero]
    norm_num

/-- Witness for C3 at the one-sample signal `[1]` and `sampling_rate = 1`:
`perform_fft` returns the raw spectrum `[1]`, and the reconstructed sample at
index 0 matches the input within `1e-10`. -/
theorem fft_ifft_roundtrip_witness :
    perform_fft [1] 1 = .ok ([], [], [(1 : ℂ)]) ∧
    |(perform_ifft [(1 : ℂ)]).getD 0 0 - ([1] : List ℝ).getD 0 0| ≤ 1e-10 := by
  have hfft : fftList [(1 : ℂ)] = [(1 : ℂ)] := by
    simp [fftList, show List.range 1 = [0] from rfl, Finset.sum_range_one]
  have hpf : perform_fft ([1] : List ℝ) 1 = .ok ([], [], [(1 : ℂ)]) := by
    norm_num [perform_fft, hfft]
  exact ⟨hpf, fft_ifft_roundtrip [1] 1 [] [] [(1 : ℂ)] hpf 0⟩

/-- C4: each of the three validation rules of `compute_stft` raises a
`ValueError` naming the violated constraint before any computation, checked in
source order (`window_size <= 0`, then `hop_length <= 0`, then
`hop_length > window_size`); no partial result is returned. -/
theorem compute_stft_validation (signal : List ℝ) (sr : ℝ) (ws hop : ℤ) (wt : String) :
    (ws ≤ 0 → compute_stft signal sr ws hop wt = .error "window_size must be positive") ∧
    (0 < ws → hop ≤ 0 →
      compute_stft signal sr ws hop wt = .error "hop_length must be positive") ∧
    (0 < ws → 0 < hop → ws < hop →
      compute_stft signal sr ws hop wt =
        .error "hop_length must be less than or equal to window_size") := by
  refine ⟨fun h => ?_, fun h1 h2 => ?_, fun h1 h2 h3 => ?_⟩
  · simp only [compute_stft, if_pos h]
  · simp only [compute_stft]
    rw [if_neg (not_le.2 h1), if_pos h2]
  · simp only [compute_stft]
    rw [if_neg (not_le.2 h1), if_neg (not_le.2 h2), if_pos h3]

/-- Witness for C4 at the three concrete invalid calls. -/
theorem compute_stft_validation_witness :
    ((0 : ℤ) ≤ 0 ∧ compute_stft [] 1 0 1 "hamming" = .error "window_size must be positive") ∧
    ((0 : ℤ) < 1 ∧ (0 : ℤ) ≤ 0 ∧
      compute_stft [] 1 1 0 "hamming" = .error "hop_length must be positive") ∧
    ((0 : ℤ) < 1 ∧ (0 : ℤ) < 2 ∧ (1 : ℤ) < 2 ∧
      compute_stft [] 1 1 2 "hamming" =
        .error "hop_length must be less than or equal to window_size") :=
  ⟨⟨le_refl 0, (compute_stft_validation [] 1 0 1 "hamming").1 (le_refl 0)⟩,
   ⟨by norm_num, le_refl 0,
     (compute_stft_validation [] 1 1 0 "hamming").2.1 (by norm_num) (le_refl 0)⟩,
   ⟨by norm_num, by norm_num, by norm_num,
     (compute_stft_validation [] 1 1 2 "hamming").2.2 (by norm_num) (by norm_num) (by norm_num)⟩⟩

/-- C5: for a window-type tag outside {hamming, hanning, blackman},
`apply_window` raises `ValueError` whose message names the tag, and so does
`compute_stft` on any call that reaches the windowing of at least one frame
(valid size parameters, nonzero sampling rate, `len(signal) ≥ window_size`). -/
theorem unsupported_window_type (s signal : List ℝ) (sr : ℝ) (ws hop : ℤ) (wt : String)
    (h1 : wt ≠ "hamming") (h2 : wt ≠ "hanning") (h3 : wt ≠ "blackman")
    (hws : 0 < ws) (hhop : 0 < hop) (hle : hop ≤ ws)
    (hlen : ws ≤ (signal.length : ℤ)) (hsr : sr ≠ 0) :
    apply_window s wt = .error ("Unsupported window type: " ++ wt) ∧
    compute_stft signal sr ws hop wt = .error ("Unsupported window type: " ++ wt) := by
  refine ⟨apply_window_unrecognized s wt h1 h2 h3, ?_⟩
  have hq0 : 0 ≤ Int.fdiv ((signal.length : ℤ) - ws) hop :=
    Int.fdiv_nonneg (by omega) hhop.le
  have hnw : ¬(1 + Int.fdiv ((signal.length : ℤ) - ws) hop < 0) := by omega
  obtain ⟨m, hm⟩ : ∃ m, (1 + Int.fdiv ((signal.length : ℤ) - ws) hop).toNat = m + 1 :=
    ⟨(1 + Int.fdiv ((signal.length : ℤ) - ws) hop).toNat - 1, by omega⟩
  simp only [compute_stft]
  rw [if_neg (not_le.2 hws), if_neg (not_le.2 hhop), if_neg (not_lt.2 hle),
    if_neg hnw, if_neg hsr, hm, List.range_succ_eq_map,
    stftRows_unrecognized signal hop.toNat ws.toNat wt h1 h2 h3 0 _]

/-- Witness for C5 at `wt = "triangular"`, a 2-sample signal, `W = 2`, `H = 1`. -/
theorem unsupported_window_type_witness :
    "triangular" ≠ "hamming" ∧ "triangular" ≠ "hanning" ∧ "triangular" ≠ "blackman" ∧
    (0 : ℤ) < 2 ∧ (0 : ℤ) < 1 ∧ (1 : ℤ) ≤ 2 ∧ (2 : ℤ) ≤ (([0, 0] : List ℝ).length : ℤ) ∧
    (1 : ℝ) ≠ 0 ∧
    apply_window [0] "triangular" = .error ("Unsupported window type: " ++ "triangular") ∧
    compute_stft [0, 0] 1 2 1 "triangular" =
      .error ("Unsupported window type: " ++ "triangular") := by
  have h := unsupported_window_type [0] [0, 0] 1 2 1 "triangular"
    (by decide) (by decide) (by decide) (by norm_num) (by norm_num) (by norm_num)
    (by norm_num) (by norm_num)
  exact ⟨by decide, by decide, by decide, by norm_num, by norm_num, by norm_num,
    by norm_num, by norm_num, h.1, h.2⟩

/-- C9: with valid size parameters and an undersized signal
(`window_size - hop_length ≤ len(signal) < window_size`), `compute_stft`
returns without error an empty STFT matrix (zero rows) and zero time stamps —
even for an unrecognized window-type tag, since no frame is ever windowed; it
fails (numpy's negative-dimensions error) exactly when the frame-count formula
`1 + (len(signal) - window_size) // hop_length` is negative, i.e. when
`len(signal) < window_size - hop_length`. -/
theorem compute_stft_undersized (signal : List ℝ) (sr : ℝ) (ws hop : ℤ) (wt : String)
    (hws : 0 < ws) (hhop : 0 < hop) (hle : hop ≤ ws) (hlen : (signal.length : ℤ) < ws) :
    (sr ≠ 0 → ws - hop ≤ (signal.length : ℤ) →
      compute_stft signal sr ws hop wt = .ok ([], rfftfreq ws.toNat sr, [])) ∧
    ((signal.length : ℤ) < ws - hop →
      compute_stft signal sr ws hop wt = .error "negative dimensions are not allowed") := by
  have hmod := Int.fmod_add_fdiv ((signal.length : ℤ) - ws) hop
  have hmn := Int.fmod_nonneg' ((signal.length : ℤ) - ws) hhop
  have hml := Int.fmod_lt_of_pos ((signal.length : ℤ) - ws) hhop
  constructor
  · intro hsr hrange
    have hfd : Int.fdiv ((signal.length : ℤ) - ws) hop = -1 := by
      have hlt : Int.fdiv ((signal.length : ℤ) - ws) hop < 0 := by
        by_contra hq
        push_neg at hq
        have := mul_nonneg hhop.le hq
        omega
      have hgt : -2 < Int.fdiv ((signal.length : ℤ) - ws) hop := by
        by_contra hq
        push_neg at hq
        have h2 : hop * Int.fdiv ((signal.length : ℤ) - ws) hop ≤ hop * (-2) :=
          mul_le_mul_of_nonneg_left hq hhop.le
        omega
      omega
    simp only [compute_stft]
    rw [if_neg (not_le.2 hws), if_neg (not_le.2 hhop), if_neg (not_lt.2 hle), hfd]
    norm_num [hsr]
    rfl
  · intro hneg
    have hfd : 1 + Int.fdiv ((signal.length : ℤ) - ws) hop < 0 := by
      have hq : Int.fdiv ((signal.length : ℤ) - ws) hop < -1 := by
        by_contra hq
        push_neg at hq
        have h2 : hop * (-1) ≤ hop * Int.fdiv ((signal.length : ℤ) - ws) hop :=
          mul_le_mul_of_nonneg_left hq hhop.le
        have h3 := fdiv_mul_le ((signal.length : ℤ) - ws) hhop
        omega
      omega
    simp only [compute_stft]
    rw [if_neg (not_le.2 hws), if_neg (not_le.2 hhop), if_neg (not_lt.2 hle), if_pos hfd]

/-- Witness for C9: `len(signal) = 3`, `W = 4`, `H = 2`, tag `"triangular"`. -/
theorem compute_stft_undersized_witness :
    (0 : ℤ) < 4 ∧ (0 : ℤ) < 2 ∧ (2 : ℤ) ≤ 4 ∧ (([0, 0, 0] : List ℝ).length : ℤ) < 4 ∧
    (1 : ℝ) ≠ 0 ∧ (4 : ℤ) - 2 ≤ (([0, 0, 0] : List ℝ).length : ℤ) ∧
    compute_stft [0, 0, 0] 1 4 2 "triangular" = .ok ([], rfftfreq 4 1, []) := by
  have h := (compute_stft_undersized [0, 0, 0] 1 4 2 "triangular"
    (by norm_num) (by norm_num) (by norm_num) (by norm_num)).1 (by norm_num) (by norm_num)
  exact ⟨by norm_num, by norm_num, by norm_num, by norm_num, by norm_num, by norm_num, h⟩

/-- C2: for every signal at least one window long, valid size parameters, a
nonzero sampling rate and a recognized window-type tag, `compute_stft`
succeeds with a matrix of exactly `1 + (len(signal) - W) // H` rows, each row
of exactly `W // 2 + 1` frequency bins, and time stamp `i` equal to
`i * hop_length / sampling_rate`. -/
theorem compute_stft_shape (signal : List ℝ) (sr : ℝ) (ws hop : ℤ) (wt : String)
    (hws : 0 < ws) (hhop : 0 < hop) (hle : hop ≤ ws)
    (hlen : ws ≤ (signal.length : ℤ)) (hsr : sr ≠ 0)
    (hwt : wt = "hamming" ∨ wt = "hanning" ∨ wt = "blackman") :
    ∃ times freqs M,
      compute_stft signal sr ws hop wt = .ok (times, freqs, M) ∧
      (M.length : ℤ) = 1 + Int.fdiv ((signal.length : ℤ) - ws) hop ∧
      (∀ row ∈ M, (row.length : ℤ) = Int.fdiv ws 2 + 1) ∧
      times.length = M.length ∧
      (∀ i, i < M.length → times.getD i 0 = (i : ℝ) * (hop : ℝ) / sr) := by
  have hq0 : 0 ≤ Int.fdiv ((signal.length : ℤ) - ws) hop :=
    Int.fdiv_nonneg (by omega) hhop.le
  have hnw : ¬(1 + Int.fdiv ((signal.length : ℤ) - ws) hop < 0) := by omega
  have hbound : ∀ i ∈ List.range (1 + Int.fdiv ((signal.length : ℤ) - ws) hop).toNat,
      i * hop.toNat + ws.toNat ≤ signal.length := by
    intro i hi
    rw [List.mem_range] at hi
    have hiq : (i : ℤ) ≤ Int.fdiv ((signal.length : ℤ) - ws) hop := by omega
    have h1 : (i : ℤ) * hop ≤ Int.fdiv ((signal.length : ℤ) - ws) hop * hop :=
      mul_le_mul_of_nonneg_right hiq hhop.le
    have h2 : hop * Int.fdiv ((signal.length : ℤ) - ws) hop ≤ (signal.length : ℤ) - ws :=
      fdiv_mul_le _ hhop
    have h3 : (i : ℤ) * hop + ws ≤ (signal.length : ℤ) := by
      rw [mul_comm] at h2
      linarith
    have h4 : ((i * hop.toNat + ws.toNat : ℕ) : ℤ) ≤ (signal.length : ℤ) := by
      push_cast
      rw [Int.toNat_of_nonneg hhop.le, Int.toNat_of_nonneg hws.le]
      exact h3
    exact_mod_cast h4
  obtain ⟨M, hM, hMlen, hMrow⟩ := stftRows_ok signal hop.toNat ws.toNat wt hwt
    (List.range (1 + Int.fdiv ((signal.length : ℤ) - ws) hop).toNat) hbound
  have hMn : M.length = (1 + Int.fdiv ((signal.length : ℤ) - ws) hop).toNat := by
    rw [hMlen, List.length_range]
  refine ⟨(List.range (1 + Int.fdiv ((signal.length : ℤ) - ws) hop).toNat).map
      (fun i : ℕ => (i : ℝ) * (hop : ℝ) / sr), rfftfreq ws.toNat sr, M, ?_, ?_, ?_, ?_, ?_⟩
  · simp only [compute_stft]
    rw [if_neg (not_le.2 hws), if_neg (not_le.2 hhop), if_neg (not_lt.2 hle),
      if_neg hnw, if_neg hsr, hM]
  · rw [hMn]
    omega
  · intro row hrow
    have := hMrow row hrow
    rw [this]
    rw [Int.fdiv_eq_ediv ws (by norm_num : (0 : ℤ) ≤ 2)]
    omega
  · simp [hMn]
  · intro i hi
    rw [hMn] at hi
    exact getD_map_range _ i _ 0 hi

/-- Witness for C2: 4 samples, `W = 2`, `H = 1`, Hamming. -/
theorem compute_stft_shape_witness :
    (0 : ℤ) < 2 ∧ (0 : ℤ) < 1 ∧ (1 : ℤ) ≤ 2 ∧ (2 : ℤ) ≤ (([0, 0, 0, 0] : List ℝ).length : ℤ) ∧
    (2 : ℝ) ≠ 0 ∧
    (∃ times freqs M,
      compute_stft [0, 0, 0, 0] 2 2 1 "hamming" = .ok (times, freqs, M) ∧
      (M.length : ℤ) = 1 + Int.fdiv ((([0, 0, 0, 0] : List ℝ).length : ℤ) - 2) 1 ∧
      (∀ row ∈ M, (row.length : ℤ) = Int.fdiv 2 2 + 1) ∧
      times.length = M.length ∧
      (∀ i, i < M.length → times.getD i 0 = (i : ℝ) * ((1 : ℤ) : ℝ) / 2)) :=
  ⟨by norm_num, by norm_num, by norm_num, by norm_num, by norm_num,
   compute_stft_shape [0, 0, 0, 0] 2 2 1 "hamming" (by norm_num) (by norm_num)
     (by norm_num) (by norm_num) (by norm_num) (Or.inl rfl)⟩

/-- C8 counterexample: with `db_range = -10 < 0` (no validation rejects it) the
clamp floor `peak_db - db_range` lies above the peak, so the output maximum is
`peak_db + 10`, not the unnormalized peak.  At `M = [[1]]` the peak
`10·log10(max(1, eps))` is `0` but the returned spectrogram is `[[10]]`. -/
theorem spectrogram_peak_counterexample :
    compute_spectrogram [] [] [[1]] (-10) = .ok [[(10 : ℝ)]] ∧
    listMax [[(10 : ℝ)]].flatten ≠
      10 * Real.logb 10 (max (listMax (power [[1]]).flatten) eps) := by
  have habs : Complex.abs 1 ^ 2 = 1 := by simp
  have hmax : max (1 : ℝ) eps = 1 := max_eq_left eps_le_one
  have hv : 10 * Real.logb 10 (max (Complex.abs 1 ^ 2) eps) = 0 := by
    rw [habs, hmax, Real.logb_one, mul_zero]
  constructor
  · rw [compute_spectrogram_singleton 1 (-10), hv]
    norm_num
  · have hp : power [[(1 : ℂ)]] = [[1]] := by simp [power]
    rw [hp]
    have hl : listMax [[(1 : ℝ)]].flatten = 1 := rfl
    have hl10 : listMax [[(10 : ℝ)]].flatten = 10 := rfl
    rw [hl, hl10, hmax, Real.logb_one, mul_zero]
    norm_num

/-- C8 (amended to `db_range ≥ 0`): whenever `compute_spectrogram` returns a
spectrogram and `db_range ≥ 0`, the maximum of the output equals the
unnormalized peak of `power_db`, i.e. `10·log10(max(max |M[i,k]|², eps))` —
and that value is not necessarily `0` (e.g. for `M = [[2]]`). -/
theorem spectrogram_peak_unnormalized :
    (∀ (times freqs : List ℝ) (M : List (List ℂ)) (db : ℝ) (S : List (List ℝ)),
        0 ≤ db → compute_spectrogram times freqs M db = .ok S →
        listMax S.flatten = 10 * Real.logb 10 (max (listMax (power M).flatten) eps)) ∧
    (∃ S, compute_spectrogram [] [] [[2]] 60 = .ok S ∧ listMax S.flatten ≠ 0) := by
  constructor
  · intro times freqs M db S hdb h
    obtain ⟨hne, rfl⟩ := compute_spectrogram_ok h
    have hpdb := power_db_flatten_ne (M := M) hne
    rw [spectrogram_flatten, listMax_map_max_const hpdb]
    have hfloor : peak_db M - db ≤ listMax (power_db M).flatten := by
      have hdef : listMax (power_db M).flatten = peak_db M := rfl
      rw [hdef]
      linarith
    rw [max_eq_left hfloor]
    rw [show listMax (power_db M).flatten = listMax (power_db M).flatten from rfl,
      power_db_flatten, listMax_map_mono hne db_mono]
  · refine ⟨_, compute_spectrogram_singleton 2 60, ?_⟩
    have habs : Complex.abs 2 ^ 2 = 4 := by
      rw [Complex.abs_two]
      norm_num
    have hmax : max (4 : ℝ) eps = 4 := max_eq_left (le_trans eps_le_one (by norm_num))
    have hpos : 0 < 10 * Real.logb 10 (max (Complex.abs 2 ^ 2) eps) := by
      rw [habs, hmax]
      have := Real.logb_pos (by norm_num : (1 : ℝ) < 10) (by norm_num : (1 : ℝ) < 4)
      linarith
    have hclamp : max (10 * Real.logb 10 (max (Complex.abs 2 ^ 2) eps))
        (10 * Real.logb 10 (max (Complex.abs 2 ^ 2) eps) - 60) =
        10 * Real.logb 10 (max (Complex.abs 2 ^ 2) eps) := max_eq_left (by linarith)
    have hl : listMax [[max (10 * Real.logb 10 (max (Complex.abs 2 ^ 2) eps))
        (10 * Real.logb 10 (max (Complex.abs 2 ^ 2) eps) - 60)]].flatten =
        max (10 * Real.logb 10 (max (Complex.abs 2 ^ 2) eps))
          (10 * Real.logb 10 (max (Complex.abs 2 ^ 2) eps) - 60) := rfl
    rw [hl, hclamp]
    exact hpos.ne'

/-- Witness for the amended C8 at `[[1]]`, `db_range = 60`. -/
theorem spectrogram_peak_unnormalized_witness :
    (0 : ℝ) ≤ 60 ∧
    listMax [[max (10 * Real.logb 10 (max (Complex.abs 1 ^ 2) eps))
              (10 * Real.logb 10 (max (Complex.abs 1 ^ 2) eps) - 60)]].flatten =
      10 * Real.logb 10 (max (listMax (power [[1]]).flatten) eps) :=
  ⟨by norm_num,
   spectrogram_peak_unnormalized.1 [] [] [[1]] 60 _ (by norm_num)
     (compute_spectrogram_singleton 1 60)⟩

end FFTPackage

end
